import Mathlib

/-!
Shallow embedding of the freqiterator crate (src/lib.rs).

Rust iterators are modelled as a state type `I` together with a step
function `nextI : I → Option T × I` returning the optional yielded value
and the successor state (Rust's `fn next(&mut self) -> Option<T>`, which
may mutate `self` even when it returns `None`).  The numeric type `T` of
frequencies is kept generic, as in the source, with the required trait
operations bundled in `NumOps`; the claims about concrete frequency values
are settled at the real-number instantiation `realOps`, where the
floating-point `powf` of the source is read as real exponentiation.
-/

/-- Numeric operations available on the frequency type, mirroring the Rust
trait bounds `From<u8> + From<f32> + Pow<T, Output = T> + MulAssign +
Div<Output = T> + Copy` of `lib.rs`.  `ofF32` takes a rational because the
`f32` literals used by the source (`27.5`, `12.0`) are exactly
representable. -/
structure NumOps (T : Type) where
  ofU8 : ℕ → T
  ofF32 : ℚ → T
  pow : T → T → T
  mul : T → T → T
  div : T → T → T

/-- Real-number instantiation of the numeric operations: `pow` is real
exponentiation (`Real.rpow`), the reading of `f32::powf`. -/
noncomputable def realOps : NumOps ℝ where
  ofU8 := fun n => (n : ℝ)
  ofF32 := fun q => (q : ℝ)
  pow := fun a b => a ^ b
  mul := fun a b => a * b
  div := fun a b => a / b

/-- Frequency of an A at octave 0 (`pub const A0: f32 = 27.5`); the literal
is exactly representable, kept as a rational. -/
def A0 : ℚ := 27.5

/-- Medieval mode (`pub enum Mode { A, B, C, D, E, F, G }`). -/
inductive Mode where
  | A
  | B
  | C
  | D
  | E
  | F
  | G

/-- Discriminant of `Mode` as produced by the derived `ToPrimitive`
(`to_usize`): declaration order `A..G ↦ 0..6`. -/
def Mode.to_usize : Mode → ℕ
  | .A => 0
  | .B => 1
  | .C => 2
  | .D => 3
  | .E => 4
  | .F => 5
  | .G => 6

/-- Semitone skip table `Mode::to_skip` of the source. -/
def Mode.to_skip : Mode → ℕ
  | .A => 0
  | .B => 2
  | .C => 3
  | .D => 5
  | .E => 7
  | .F => 8
  | .G => 10

/-- A key and a sharp (`pub struct Key { note: Mode, sharp: bool }`). -/
structure Key where
  note : Mode
  sharp : Bool

/-- Constructor generated by `derive_new` for `Key`. -/
def Key.new (note : Mode) (sharp : Bool) : Key := ⟨note, sharp⟩

/-- Frequency generator state
(`pub struct FreqGenerator<T> { freq: T, scale: T }`). -/
structure FreqGenerator (T : Type) where
  freq : T
  scale : T

/-- Constructor generated by `derive_new` for `FreqGenerator`: it performs
no validation of its arguments. -/
def FreqGenerator.new {T : Type} (freq scale : T) : FreqGenerator T := ⟨freq, scale⟩

/-- `FreqGenerator::next`:
`self.freq *= 2.into().pow(1.into() / self.scale); Some(self.freq)`. -/
def FreqGenerator.next {T : Type} (O : NumOps T) (g : FreqGenerator T) :
    Option T × FreqGenerator T :=
  let f := O.mul g.freq (O.pow (O.ofU8 2) (O.div (O.ofU8 1) g.scale))
  (some f, ⟨f, g.scale⟩)

/-- State of an iterator after `k` calls to `next` (`Iterator::skip k`
consumes exactly these `k` calls before yielding). -/
def iterState {T I : Type} (nextI : I → Option T × I) (i : I) : ℕ → I
  | 0 => i
  | m + 1 => (nextI (iterState nextI i m)).2

/-- Value produced by the k-th call to `next` (for `k ≥ 1`), i.e. the value
of `.skip (k-1) |>.next()`. -/
def nthValue {T I : Type} (nextI : I → Option T × I) (i : I) (k : ℕ) : Option T :=
  (nextI (iterState nextI i (k - 1))).1

/-- `Key::to_freq`:
`FreqGenerator::new(A0.into(), 12f32.into()).skip(self.note.to_skip() + self.sharp as usize).next()`;
the source's final `.unwrap()` is reflected by theorems stating the result
is `some _`. -/
def Key.to_freq {T : Type} (O : NumOps T) (k : Key) : Option T :=
  (FreqGenerator.next O (iterState (FreqGenerator.next O)
    (FreqGenerator.new (O.ofF32 A0) (O.ofF32 12))
    (k.note.to_skip + (if k.sharp then 1 else 0)))).1

/-- The diatonic interval pattern `[2, 2, 1, 2, 2, 2, 1]` of
`ScaleGenerator::new`. -/
def intervalPattern : List ℕ := [2, 2, 1, 2, 2, 2, 1]

/-- Step size read at absolute position `i` of the cyclic interval iterator
`[2,2,1,2,2,2,1].iter().copied().cycle()` (so `cycle().skip(k)` sits at
position `k`); this is the value of `self.intervals.next().unwrap()` at
that position — the `Cycle` wraps modulo the pattern length 7. -/
def stepAt (i : ℕ) : ℕ := intervalPattern.getD (i % 7) 0

/-- Scale generator state
(`pub struct ScaleGenerator { fg: I, intervals: Skip<Cycle<…>> }`); the
cyclic interval iterator is represented by its absolute position. The
value-type parameter of the Rust struct is elided since it only carries
trait bounds. -/
structure ScaleGenerator (I : Type) where
  fg : I
  intervals : ℕ

/-- `ScaleGenerator::new(frequencies, mode)`: holds the wrapped iterator
and the cyclic interval cursor skipped to `mode.to_usize()`. -/
def ScaleGenerator.new {I : Type} (frequencies : I) (mode : Mode) : ScaleGenerator I :=
  ⟨frequencies, mode.to_usize⟩

/-- The discard loop `for _ in 1..s { self.fg.next()?; }` of
`ScaleGenerator::next`, run for its iteration count `s - 1`: returns
`false` together with the partially-consumed wrapped state when some call
yields `none` (the `?` early return). -/
def discardSteps {T I : Type} (nextI : I → Option T × I) : ℕ → I → Bool × I
  | 0, i => (true, i)
  | k + 1, i =>
    match nextI i with
    | (some _, i2) => discardSteps nextI k i2
    | (none, i2) => (false, i2)

/-- `ScaleGenerator::next`: read the current interval (advancing the
cursor), run the discard loop, then return `self.fg.next()`.  On the `?`
early return the cursor has already advanced and the wrapped iterator
keeps its partially-consumed state. -/
def ScaleGenerator.next {T I : Type} (nextI : I → Option T × I) (g : ScaleGenerator I) :
    Option T × ScaleGenerator I :=
  match discardSteps nextI (stepAt g.intervals - 1) g.fg with
  | (true, fg2) => ((nextI fg2).1, ⟨(nextI fg2).2, g.intervals + 1⟩)
  | (false, fg2) => (none, ⟨fg2, g.intervals + 1⟩)

/-- Step function of a finite list-backed iterator (a Rust slice or `Vec`
iterator): one of the finite wrapped streams contemplated by §4.2/§7 of
the spec, since `ScaleGenerator` is generic over the wrapped iterator. -/
def listNext {T : Type} : List T → Option T × List T
  | [] => (none, [])
  | x :: xs => (some x, xs)

/-- Step function of an instrumented infinite stream whose state counts
how many elements have been consumed; used to state element-consumption
claims. -/
def streamNext {T : Type} (f : ℕ → T) : ℕ → Option T × ℕ :=
  fun n => (some (f n), n + 1)

/-- Modelled from the spec (§4.2 `next()`): one scale step's effect on the
wrapped stream — call the wrapped `next()` exactly `s - 1` times
discarding the results, aborting with no value if any of those calls
yields none, then call it one final time and return that value. -/
def callTimes {T I : Type} (nextI : I → Option T × I) : ℕ → I → Option T × I
  | 0, i => (none, i)
  | 1, i => nextI i
  | k + 2, i =>
    match nextI i with
    | (some _, i2) => callTimes nextI (k + 1) i2
    | (none, i2) => (none, i2)

/-- Total number of wrapped-stream elements consumed by `m` scale steps
starting at interval position `i0`. -/
def patternSum (i0 : ℕ) : ℕ → ℕ
  | 0 => 0
  | m + 1 => patternSum i0 m + stepAt (i0 + m)

/-! ### Helper lemmas about the embedding -/

/-- Every interval step read from the cyclic pattern is positive. -/
theorem stepAt_pos (i : ℕ) : 1 ≤ stepAt i := by
  have h7 : i % 7 < 7 := Nat.mod_lt _ (by norm_num)
  have hall : ∀ r < 7, 1 ≤ intervalPattern.getD r 0 := by decide
  exact hall _ h7

/-- The step read only depends on the cursor position modulo 7. -/
theorem stepAt_congr {i j : ℕ} (h : i % 7 = j % 7) : stepAt i = stepAt j := by
  unfold stepAt
  rw [h]

/-- Iterating an iterator state is additive in the step count. -/
theorem iterState_add {T I : Type} (nextI : I → Option T × I) (i : I) (a b : ℕ) :
    iterState nextI i (a + b) = iterState nextI (iterState nextI i a) b := by
  induction b with
  | zero => rfl
  | succ b ih =>
    show (nextI (iterState nextI i (a + b))).2 = _
    rw [ih]
    rfl

/-- One real `FreqGenerator` step, unfolded. -/
theorem realNext_eq (g : FreqGenerator ℝ) :
    FreqGenerator.next realOps g =
      (some (g.freq * 2 ^ ((1:ℝ) / g.scale)), ⟨g.freq * 2 ^ ((1:ℝ) / g.scale), g.scale⟩) := by
  simp [FreqGenerator.next, realOps]

/-- The real `FreqGenerator` always yields a value. -/
theorem realNext_total (x : FreqGenerator ℝ) :
    ((FreqGenerator.next realOps x).1).isSome = true := rfl

/-- Closed form of the real `FreqGenerator` state after `t` steps. -/
theorem freq_iterState (f n : ℝ) (t : ℕ) :
    iterState (FreqGenerator.next realOps) ⟨f, n⟩ t = ⟨f * 2 ^ ((t : ℝ) / n), n⟩ := by
  induction t with
  | zero => simp [iterState]
  | succ t ih =>
    show (FreqGenerator.next realOps (iterState (FreqGenerator.next realOps) ⟨f, n⟩ t)).2 = _
    rw [ih, realNext_eq]
    dsimp only
    congr 1
    rw [mul_assoc, ← Real.rpow_add (by norm_num : (0:ℝ) < 2), div_add_div_same]
    push_cast
    ring_nf

/-- Closed form of the value of the k-th call (`k ≥ 1`) to the real
`FreqGenerator`. -/
theorem freq_nth (f n : ℝ) (k : ℕ) (hk : 1 ≤ k) :
    nthValue (FreqGenerator.next realOps) ⟨f, n⟩ k = some (f * 2 ^ ((k : ℝ) / n)) := by
  obtain ⟨k', rfl⟩ : ∃ k', k = k' + 1 := ⟨k - 1, (Nat.succ_pred_eq_of_pos hk).symm⟩
  unfold nthValue
  rw [Nat.add_sub_cancel, freq_iterState, realNext_eq]
  dsimp only
  congr 1
  rw [mul_assoc, ← Real.rpow_add (by norm_num : (0:ℝ) < 2), div_add_div_same]
  push_cast
  ring_nf

/-- The discard loop over an iterator that always yields succeeds and
advances the state by its iteration count. -/
theorem discardSteps_total {T I : Type} (nextI : I → Option T × I)
    (h : ∀ x, ((nextI x).1).isSome = true) (k : ℕ) (i : I) :
    discardSteps nextI k i = (true, iterState nextI i k) := by
  induction k generalizing i with
  | zero => rfl
  | succ k ih =>
    rcases hni : nextI i with ⟨v, i2⟩
    have hfront : iterState nextI i (k + 1) = iterState nextI i2 k := by
      rw [Nat.add_comm, iterState_add]
      show iterState nextI (nextI i).2 k = iterState nextI i2 k
      rw [hni]
    cases v with
    | none =>
      have hx := h i
      rw [hni] at hx
      simp at hx
    | some w =>
      show (match nextI i with
        | (some _, i2) => discardSteps nextI k i2
        | (none, i2) => (false, i2)) = _
      rw [hni, hfront]
      exact ih i2

/-- One scale step over an iterator that always yields: the value is the
`stepAt`-th wrapped value and the wrapped state advances by `stepAt`. -/
theorem scale_next_total {T I : Type} (nextI : I → Option T × I)
    (h : ∀ x, ((nextI x).1).isSome = true) (g : ScaleGenerator I) :
    ScaleGenerator.next nextI g =
      ((nextI (iterState nextI g.fg (stepAt g.intervals - 1))).1,
        ⟨iterState nextI g.fg (stepAt g.intervals), g.intervals + 1⟩) := by
  unfold ScaleGenerator.next
  rw [discardSteps_total nextI h]
  dsimp only
  congr 2
  have hs := stepAt_pos g.intervals
  calc (nextI (iterState nextI g.fg (stepAt g.intervals - 1))).2
      = iterState nextI g.fg (stepAt g.intervals - 1 + 1) := rfl
    _ = iterState nextI g.fg (stepAt g.intervals) := by
        rw [Nat.sub_add_cancel hs]

/-- Scale-generator state after `m` steps over an iterator that always
yields: the wrapped state advances by `patternSum` and the cursor by `m`. -/
theorem scale_iterState_total {T I : Type} (nextI : I → Option T × I)
    (h : ∀ x, ((nextI x).1).isSome = true) (fg : I) (i0 m : ℕ) :
    iterState (ScaleGenerator.next nextI) ⟨fg, i0⟩ m =
      ⟨iterState nextI fg (patternSum i0 m), i0 + m⟩ := by
  induction m with
  | zero => rfl
  | succ m ih =>
    show (ScaleGenerator.next nextI (iterState (ScaleGenerator.next nextI) ⟨fg, i0⟩ m)).2 = _
    rw [ih, scale_next_total nextI h]
    dsimp only
    rw [← iterState_add]
    rfl

/-- Closed form of the m-th scale value (`m ≥ 1`) over a real
`FreqGenerator` seeded at `(f, n)`, starting at interval position `i0`. -/
theorem scale_nth_real (f n : ℝ) (i0 m : ℕ) (hm : 1 ≤ m) :
    nthValue (ScaleGenerator.next (FreqGenerator.next realOps)) ⟨⟨f, n⟩, i0⟩ m =
      some (f * 2 ^ ((patternSum i0 m : ℝ) / n)) := by
  obtain ⟨m', rfl⟩ : ∃ m', m = m' + 1 := ⟨m - 1, (Nat.succ_pred_eq_of_pos hm).symm⟩
  unfold nthValue
  rw [Nat.add_sub_cancel, scale_iterState_total _ realNext_total,
    scale_next_total _ realNext_total]
  dsimp only
  rw [← iterState_add, freq_iterState, realNext_eq]
  dsimp only
  congr 1
  rw [mul_assoc, ← Real.rpow_add (by norm_num : (0:ℝ) < 2), div_add_div_same]
  have hs := stepAt_pos (i0 + m')
  have hnum : ((patternSum i0 m' + (stepAt (i0 + m') - 1) : ℕ) : ℝ) + 1 =
      ((patternSum i0 (m' + 1) : ℕ) : ℝ) := by
    have hps : patternSum i0 (m' + 1) = patternSum i0 m' + stepAt (i0 + m') := rfl
    rw [hps]
    push_cast [Nat.cast_sub hs]
    ring
  rw [hnum]

/-- The partial pattern sums only depend on the start position modulo 7. -/
theorem patternSum_mod (i0 m : ℕ) : patternSum i0 m = patternSum (i0 % 7) m := by
  induction m with
  | zero => rfl
  | succ m ih =>
    show patternSum i0 m + stepAt (i0 + m) = patternSum (i0 % 7) m + stepAt (i0 % 7 + m)
    rw [ih, stepAt_congr (show (i0 + m) % 7 = (i0 % 7 + m) % 7 by omega)]

/-- Every window of 7 consecutive entries of the cyclic interval pattern
sums to 12. -/
theorem patternSum_window (i0 : ℕ) : patternSum i0 7 = 12 := by
  rw [patternSum_mod]
  have h7 : i0 % 7 < 7 := Nat.mod_lt _ (by norm_num)
  have hall : ∀ r < 7, patternSum r 7 = 12 := by decide
  exact hall _ h7

/-- The body of `ScaleGenerator::next` (discard loop plus final call)
computes `callTimes` at `n + 1`. -/
theorem discard_then_final_eq_callTimes {T I : Type} (nextI : I → Option T × I)
    (n : ℕ) (i : I) :
    (match discardSteps nextI n i with
      | (true, i2) => nextI i2
      | (false, i2) => ((none : Option T), i2)) = callTimes nextI (n + 1) i := by
  induction n generalizing i with
  | zero => rfl
  | succ n ih =>
    rcases hni : nextI i with ⟨v, i2⟩
    cases v with
    | none =>
      show (match (match nextI i with
          | (some _, i2) => discardSteps nextI n i2
          | (none, i2) => (false, i2)) with
        | (true, i2) => nextI i2
        | (false, i2) => ((none : Option T), i2)) = callTimes nextI (n + 2) i
      rw [hni]
      show ((none : Option T), i2) = callTimes nextI (n + 2) i
      show ((none : Option T), i2) = (match nextI i with
        | (some _, i2) => callTimes nextI (n + 1) i2
        | (none, i2) => ((none : Option T), i2))
      rw [hni]
    | some w =>
      show (match (match nextI i with
          | (some _, i2) => discardSteps nextI n i2
          | (none, i2) => (false, i2)) with
        | (true, i2) => nextI i2
        | (false, i2) => ((none : Option T), i2)) = callTimes nextI (n + 2) i
      rw [hni]
      show (match discardSteps nextI n i2 with
        | (true, i2) => nextI i2
        | (false, i2) => ((none : Option T), i2)) = callTimes nextI (n + 2) i
      rw [ih]
      show callTimes nextI (n + 1) i2 = (match nextI i with
        | (some _, i2) => callTimes nextI (n + 1) i2
        | (none, i2) => ((none : Option T), i2))
      rw [hni]

/-- The result value and resulting wrapped state of one scale step only
depend on the cursor position modulo 7; the cursor itself always advances
by exactly one. -/
theorem scale_next_congr {T I : Type} (nextI : I → Option T × I) (fg : I) {i j : ℕ}
    (h : i % 7 = j % 7) :
    (ScaleGenerator.next nextI ⟨fg, i⟩).1 = (ScaleGenerator.next nextI ⟨fg, j⟩).1 ∧
    (ScaleGenerator.next nextI ⟨fg, i⟩).2.fg = (ScaleGenerator.next nextI ⟨fg, j⟩).2.fg ∧
    (ScaleGenerator.next nextI ⟨fg, i⟩).2.intervals = i + 1 ∧
    (ScaleGenerator.next nextI ⟨fg, j⟩).2.intervals = j + 1 := by
  unfold ScaleGenerator.next
  dsimp only
  rw [stepAt_congr h]
  rcases discardSteps nextI (stepAt j - 1) fg with ⟨b, fg2⟩
  cases b <;> simp

/-- The counting stream always yields a value. -/
theorem streamNext_total {T : Type} (f : ℕ → T) (n : ℕ) :
    ((streamNext f n).1).isSome = true := rfl

/-- The counting stream's counter advances by exactly the number of calls. -/
theorem stream_iterState {T : Type} (f : ℕ → T) (c k : ℕ) :
    iterState (streamNext f) c k = c + k := by
  induction k with
  | zero => rfl
  | succ k ih =>
    show (streamNext f (iterState (streamNext f) c k)).2 = c + (k + 1)
    rw [ih]
    rfl

/-- Eta-style extensionality for `ScaleGenerator`. -/
theorem scaleGen_eta {I : Type} (s : ScaleGenerator I) (v : ℕ) (h : s.intervals = v) :
    s = ⟨s.fg, v⟩ := by
  rw [← h]

/-- Scale streams whose cursors agree modulo 7 stay in lockstep: after `m`
steps the wrapped states coincide and the cursors have each advanced by
`m`. -/
theorem scale_iter_congr {T I : Type} (nextI : I → Option T × I) (fg : I) {i j : ℕ}
    (h : i % 7 = j % 7) (m : ℕ) :
    ∃ F : I,
      iterState (ScaleGenerator.next nextI) ⟨fg, i⟩ m = ⟨F, i + m⟩ ∧
      iterState (ScaleGenerator.next nextI) ⟨fg, j⟩ m = ⟨F, j + m⟩ := by
  induction m with
  | zero => exact ⟨fg, rfl, rfl⟩
  | succ m ih =>
    obtain ⟨F, hi, hj⟩ := ih
    have hmod : (i + m) % 7 = (j + m) % 7 := by omega
    have hc := scale_next_congr nextI F hmod
    refine ⟨(ScaleGenerator.next nextI ⟨F, i + m⟩).2.fg, ?_, ?_⟩
    · show (ScaleGenerator.next nextI (iterState (ScaleGenerator.next nextI) ⟨fg, i⟩ m)).2 = _
      rw [hi]
      exact scaleGen_eta _ _ (by rw [hc.2.2.1]; omega)
    · show (ScaleGenerator.next nextI (iterState (ScaleGenerator.next nextI) ⟨fg, j⟩ m)).2 = _
      rw [hj]
      calc (ScaleGenerator.next nextI ⟨F, j + m⟩).2
          = ⟨(ScaleGenerator.next nextI ⟨F, j + m⟩).2.fg, j + (m + 1)⟩ :=
            scaleGen_eta _ _ (by rw [hc.2.2.2]; omega)
        _ = ⟨(ScaleGenerator.next nextI ⟨F, i + m⟩).2.fg, j + (m + 1)⟩ := by
            rw [hc.2.1]

/-- Rounding the exact real 440 gives 440. -/
theorem round_real_440 : round ((440:ℝ)) = 440 := by
  rw [show (440:ℝ) = ((440:ℕ):ℝ) by norm_num]
  exact round_natCast 440

/-- The fourth power of `2^(57/12)` is exactly `2^19`. -/
theorem rpow_57_12_pow4 : ((2:ℝ) ^ ((57:ℝ)/12)) ^ (4:ℕ) = 524288 := by
  rw [← Real.rpow_natCast ((2:ℝ) ^ ((57:ℝ)/12)) 4,
    ← Real.rpow_mul (by norm_num : (0:ℝ) ≤ 2)]
  rw [show (57:ℝ)/12 * ((4:ℕ):ℝ) = ((19:ℕ):ℝ) by push_cast; norm_num]
  rw [Real.rpow_natCast]
  norm_num

/-- The F-sharp five octaves minus a fourth above A0 rounds to 740. -/
theorem round_740 : round ((27.5:ℝ) * 2 ^ ((57:ℝ)/12)) = 740 := by
  have hpos : (0:ℝ) < 27.5 * 2 ^ ((57:ℝ)/12) :=
    mul_pos (by norm_num) (Real.rpow_pos_of_pos (by norm_num) _)
  have h4 : ((27.5:ℝ) * 2 ^ ((57:ℝ)/12)) ^ (4:ℕ) = 299847680000 := by
    rw [mul_pow, rpow_57_12_pow4]
    norm_num
  have hlo : (739.5:ℝ) < 27.5 * 2 ^ ((57:ℝ)/12) := by
    have hq : (739.5:ℝ) ^ (4:ℕ) < ((27.5:ℝ) * 2 ^ ((57:ℝ)/12)) ^ (4:ℕ) := by
      rw [h4]
      norm_num
    exact lt_of_pow_lt_pow_left₀ 4 (le_of_lt hpos) hq
  have hhi : (27.5:ℝ) * 2 ^ ((57:ℝ)/12) < 740.5 := by
    have hq : ((27.5:ℝ) * 2 ^ ((57:ℝ)/12)) ^ (4:ℕ) < (740.5:ℝ) ^ (4:ℕ) := by
      rw [h4]
      norm_num
    exact lt_of_pow_lt_pow_left₀ 4 (by norm_num) hq
  rw [round_eq, Int.floor_eq_iff]
  constructor
  · push_cast
    linarith
  · push_cast
    linarith

/-- Closed form of `Key::to_freq` at the real instantiation: one chromatic
step beyond the skip count, because the tone stream's first value is
already one step above its seed. -/
theorem to_freq_real (m : Mode) (sh : Bool) :
    Key.to_freq realOps (Key.new m sh) =
      some ((27.5:ℝ) * 2 ^ (((m.to_skip + (if sh then 1 else 0) + 1 : ℕ) : ℝ) / 12)) := by
  unfold Key.to_freq Key.new
  have hA0 : realOps.ofF32 A0 = (27.5:ℝ) := by norm_num [realOps, A0]
  have h12 : realOps.ofF32 12 = (12:ℝ) := by norm_num [realOps]
  simp only [FreqGenerator.new, hA0, h12]
  rw [freq_iterState, realNext_eq]
  dsimp only
  congr 1
  rw [mul_assoc, ← Real.rpow_add (by norm_num : (0:ℝ) < 2), div_add_div_same]
  congr 1
  push_cast
  ring

/-! ### Claim theorems -/

/-- C1: for every initial frequency `f`, every tone count `n ≠ 0` and every
`k ≥ 1`, the k-th value yielded by `FreqGenerator::new(f, n)` is
`f * 2^(k/n)`; in particular the first call (`k = 1`) returns
`f * 2^(1/n)`, one step above the seed, never the seed itself. -/
theorem C1_freq_nth_value (f n : ℝ) (k : ℕ) (_hn : n ≠ 0) (hk : 1 ≤ k) :
    nthValue (FreqGenerator.next realOps) (FreqGenerator.new f n) k =
      some (f * 2 ^ ((k : ℝ) / n)) :=
  freq_nth f n k hk

/-- Witness for C1 at `f = 27.5`, `n = 12`, `k = 1`. -/
theorem C1_freq_nth_value_witness :
    (12:ℝ) ≠ 0 ∧ 1 ≤ 1 ∧
      nthValue (FreqGenerator.next realOps) (FreqGenerator.new (27.5:ℝ) 12) 1 =
        some (27.5 * 2 ^ (((1:ℕ) : ℝ) / 12)) :=
  ⟨by norm_num, le_refl 1, C1_freq_nth_value 27.5 12 1 (by norm_num) (le_refl 1)⟩

/-- C4 counterexample: constructing a `FreqGenerator` with tone count 0 is
not rejected — the `derive_new` constructor performs no validation, the
generator is built as-is, and the first call to `next()` still yields a
value instead of raising any precondition violation. -/
theorem C4_zero_tone_count_counterexample :
    FreqGenerator.new (27.5:ℝ) 0 = ⟨27.5, 0⟩ ∧
      ((FreqGenerator.next realOps (FreqGenerator.new (27.5:ℝ) 0)).1).isSome = true :=
  ⟨rfl, rfl⟩

/-- C4 amended: construction with tone count 0 succeeds for every seed —
`new` performs no validation, stores the zero tone count unchanged, and
`next()` still returns a value (silently propagating the result of the
zero-division step ratio); the nonzero tone count is only a documented
precondition, not an enforced one. -/
theorem C4_zero_tone_count_amended (f : ℝ) :
    (FreqGenerator.new f (0:ℝ)).scale = 0 ∧
      ((FreqGenerator.next realOps (FreqGenerator.new f 0)).1).isSome = true :=
  ⟨rfl, rfl⟩

/-- C5: if the wrapped iterator returns no value during the discard phase
of a scale step, that call to `ScaleGenerator::next` returns no value,
never a partially-skipped frequency. -/
theorem C5_exhaustion_yields_none {T I : Type} (nextI : I → Option T × I)
    (g : ScaleGenerator I)
    (h : (discardSteps nextI (stepAt g.intervals - 1) g.fg).1 = false) :
    (ScaleGenerator.next nextI g).1 = none := by
  unfold ScaleGenerator.next
  rcases hd : discardSteps nextI (stepAt g.intervals - 1) g.fg with ⟨b, fg2⟩
  rw [hd] at h
  cases b
  · rfl
  · exact Bool.noConfusion h

/-- Witness for C5: the empty list iterator exhausts during the discard
phase of the first Ionian interval (step size 2). -/
theorem C5_exhaustion_yields_none_witness :
    (discardSteps listNext (stepAt 0 - 1) ([] : List ℕ)).1 = false ∧
      (ScaleGenerator.next listNext (⟨[], 0⟩ : ScaleGenerator (List ℕ))).1 = none :=
  ⟨by decide, C5_exhaustion_yields_none listNext ⟨[], 0⟩ (by decide)⟩

/-- C10: exhaustion is not atomic with respect to the scale stream's own
state — when the discard phase fails, `next()` returns no value but the
interval cursor has nevertheless already advanced by one position and the
wrapped iterator keeps its partially-consumed state, so a subsequent call
reads the following interval of the pattern rather than retrying. -/
theorem C10_exhaustion_advances_cursor {T I : Type} (nextI : I → Option T × I)
    (g : ScaleGenerator I) (fgAfter : I)
    (h : discardSteps nextI (stepAt g.intervals - 1) g.fg = (false, fgAfter)) :
    ScaleGenerator.next nextI g = (none, ⟨fgAfter, g.intervals + 1⟩) := by
  unfold ScaleGenerator.next
  rw [h]

/-- Witness for C10: after the empty list iterator fails the discard phase
at cursor position 0, the resulting state sits at cursor position 1. -/
theorem C10_exhaustion_advances_cursor_witness :
    discardSteps listNext (stepAt 0 - 1) ([] : List ℕ) = (false, []) ∧
      ScaleGenerator.next listNext (⟨[], 0⟩ : ScaleGenerator (List ℕ)) =
        (none, ⟨[], 1⟩) :=
  ⟨by decide, C10_exhaustion_advances_cursor listNext ⟨[], 0⟩ [] (by decide)⟩

/-- C8: the real `FreqGenerator` returns `some` in every state (the tone
sequence is infinite), and consequently a `ScaleGenerator` wrapping it also
returns `some` on every call, since a scale stream yields no value only
when its wrapped stream does. -/
theorem C8_always_some :
    (∀ g : FreqGenerator ℝ, ((FreqGenerator.next realOps g).1).isSome = true) ∧
    (∀ sg : ScaleGenerator (FreqGenerator ℝ),
      ((ScaleGenerator.next (FreqGenerator.next realOps) sg).1).isSome = true) := by
  refine ⟨realNext_total, ?_⟩
  intro sg
  rw [scale_next_total _ realNext_total]
  exact realNext_total _

/-- C9: the mode rotation is modular — a scale stream whose interval
cursor starts at any offset `k` (including `k ≥ 7`) produces exactly the
same sequence of values as one starting at `k % 7` over the same wrapped
iterator; out-of-range offsets simply continue cycling the pattern. -/
theorem C9_mode_offset_modular {T I : Type} (nextI : I → Option T × I)
    (fg : I) (k m : ℕ) :
    nthValue (ScaleGenerator.next nextI) ⟨fg, k⟩ m =
      nthValue (ScaleGenerator.next nextI) ⟨fg, k % 7⟩ m := by
  obtain ⟨F, hi, hj⟩ :=
    scale_iter_congr nextI fg (show k % 7 = (k % 7) % 7 by omega) (m - 1)
  unfold nthValue
  rw [hi, hj]
  exact (scale_next_congr nextI F
    (show (k + (m - 1)) % 7 = (k % 7 + (m - 1)) % 7 by omega)).1

/-- C2: `ScaleGenerator` holds a cyclic cursor over `[2,2,1,2,2,2,1]`
starting at the mode offset; each `next()` reads the current step size
(wrapping modulo 7), advances the cursor by exactly one position, and
performs on the wrapped iterator precisely the spec's protocol
(`callTimes`): `s - 1` discarded calls, then one final call whose value is
returned as the scale degree. -/
theorem C2_scale_next_structure :
    (∀ (I : Type) (fg : I) (mode : Mode),
      ScaleGenerator.new fg mode = ⟨fg, mode.to_usize⟩) ∧
    (∀ i : ℕ, stepAt i = intervalPattern.getD (i % 7) 0) ∧
    (∀ (T I : Type) (nextI : I → Option T × I) (g : ScaleGenerator I),
      ScaleGenerator.next nextI g =
        ((callTimes nextI (stepAt g.intervals) g.fg).1,
          ⟨(callTimes nextI (stepAt g.intervals) g.fg).2, g.intervals + 1⟩)) := by
  refine ⟨fun I fg mode => rfl, fun i => rfl, ?_⟩
  intro T I nextI g
  have hs := stepAt_pos g.intervals
  have h := discard_then_final_eq_callTimes nextI (stepAt g.intervals - 1) g.fg
  rw [Nat.sub_add_cancel hs] at h
  rcases hd : discardSteps nextI (stepAt g.intervals - 1) g.fg with ⟨b, fg2⟩
  rw [hd] at h
  unfold ScaleGenerator.next
  rw [hd]
  cases b
  · dsimp only at h ⊢
    rw [← h]
  · dsimp only at h ⊢
    rw [← h]

/-- C3 counterexample: the claim predicts `Key::to_freq` of the key A
natural — tonic table entry 0, no sharp — to be `27.5 * 2^(0/12) = 27.5`,
the reference pitch itself, but the code returns `27.5 * 2^(1/12)`, a
value strictly above 27.5 (one further chromatic step, since the tone
stream's first yielded value is already one step above its seed). -/
theorem C3_to_freq_counterexample :
    Key.to_freq realOps (Key.new Mode.A false) = some ((27.5:ℝ) * 2 ^ ((1:ℝ) / 12)) ∧
      (27.5:ℝ) < 27.5 * 2 ^ ((1:ℝ) / 12) := by
  constructor
  · rw [to_freq_real]
    norm_num [Mode.to_skip]
  · have h1 : (1:ℝ) < 2 ^ ((1:ℝ)/12) :=
      (Real.one_lt_rpow_iff_of_pos (by norm_num)).mpr
        (Or.inl ⟨by norm_num, by norm_num⟩)
    nlinarith

/-- C3 amended: for every tonic letter and sharp flag, `Key::to_freq`
returns the reference pitch `A0 = 27.5` advanced by exactly
`table[t] + sh + 1` semitone steps of 12-TET (one more than the table
entry, because `skip(k).next()` on the tone stream advances `k + 1` steps
past the seed), i.e. `27.5 * 2^((table[t] + sh + 1)/12)` with the table
mapping A,B,C,D,E,F,G to 0,2,3,5,7,8,10. -/
theorem C3_to_freq_amended (m : Mode) (sh : Bool) :
    Key.to_freq realOps (Key.new m sh) =
      some ((27.5:ℝ) * 2 ^ (((m.to_skip + (if sh then 1 else 0) + 1 : ℕ) : ℝ) / 12)) :=
  to_freq_real m sh

/-- C6: for every mode offset, any 7 consecutive scale steps consume
exactly 12 wrapped elements (every 7-window of the cyclic pattern sums to
12); consequently the 28th value of a scale stream over the 12-TET
generator seeded at `A0 = 27.5` with mode offset 0 is exactly 440, which
rounds to 440 — exactly 7 scale degrees per octave. -/
theorem C6_seven_degrees_per_octave :
    (∀ (T : Type) (f : ℕ → T) (c i0 : ℕ),
      (iterState (ScaleGenerator.next (streamNext f)) ⟨c, i0⟩ 7).fg = c + 12) ∧
    (∀ i0 : ℕ, patternSum i0 7 = 12) ∧
    nthValue (ScaleGenerator.next (FreqGenerator.next realOps))
        (ScaleGenerator.new (FreqGenerator.new (27.5:ℝ) 12) Mode.A) 28 =
      some (440:ℝ) ∧
    round ((440:ℝ)) = 440 := by
  refine ⟨?_, patternSum_window, ?_, round_real_440⟩
  · intro T f c i0
    rw [scale_iterState_total _ (streamNext_total f)]
    dsimp only
    rw [stream_iterState, patternSum_window]
  · rw [show ScaleGenerator.new (FreqGenerator.new (27.5:ℝ) 12) Mode.A =
      (⟨⟨27.5, 12⟩, 0⟩ : ScaleGenerator (FreqGenerator ℝ)) from rfl]
    rw [scale_nth_real 27.5 12 0 28 (by norm_num)]
    rw [(by decide : patternSum 0 28 = 48)]
    rw [show ((48:ℕ):ℝ)/12 = ((4:ℕ):ℝ) by push_cast; norm_num]
    rw [Real.rpow_natCast]
    norm_num

/-- C7: key shift and mode rotation are orthogonal — for every seed, tone
count `n`, shift `N`, mode offset `m` and position `i ≥ 1`, the i-th value
of a scale stream over a tone stream advanced `N` elements before wrapping
equals the i-th value of the unshifted scale stream with the same mode
offset multiplied by `2^(N/n)`; concretely, skipping 5 elements of the
12-TET stream seeded at `A0 = 27.5` before wrapping with mode offset 0
makes the 30th scale value (after `4*7 + 1` skipped steps) round to 740. -/
theorem C7_key_shift_orthogonal :
    (∀ (f n : ℝ) (N m i : ℕ), 1 ≤ i →
      nthValue (ScaleGenerator.next (FreqGenerator.next realOps))
          ⟨iterState (FreqGenerator.next realOps) (FreqGenerator.new f n) N, m⟩ i =
        (nthValue (ScaleGenerator.next (FreqGenerator.next realOps))
            ⟨FreqGenerator.new f n, m⟩ i).map (fun v => v * 2 ^ ((N : ℝ) / n))) ∧
    (nthValue (ScaleGenerator.next (FreqGenerator.next realOps))
        ⟨iterState (FreqGenerator.next realOps) (FreqGenerator.new (27.5:ℝ) 12) 5,
          Mode.to_usize Mode.A⟩ 30).map round = some (740:ℤ) := by
  constructor
  · intro f n N m i hi
    simp only [FreqGenerator.new]
    rw [freq_iterState]
    rw [scale_nth_real (f * 2 ^ ((N:ℝ)/n)) n m i hi, scale_nth_real f n m i hi]
    simp only [Option.map_some']
    congr 1
    ring
  · simp only [FreqGenerator.new]
    rw [freq_iterState]
    rw [scale_nth_real _ _ _ _ (by norm_num : 1 ≤ 30)]
    rw [(by decide : patternSum (Mode.to_usize Mode.A) 30 = 52)]
    have hcomb : (27.5:ℝ) * 2 ^ (((5:ℕ):ℝ)/12) * 2 ^ (((52:ℕ):ℝ)/12) =
        27.5 * 2 ^ ((57:ℝ)/12) := by
      rw [mul_assoc, ← Real.rpow_add (by norm_num : (0:ℝ) < 2), div_add_div_same]
      norm_num
    rw [Option.map_some', hcomb, round_740]

/-- Witness for C7's general part at `f = 27.5`, `n = 12`, `N = 5`,
`m = 0`, `i = 30`. -/
theorem C7_key_shift_orthogonal_witness :
    1 ≤ 30 ∧
      nthValue (ScaleGenerator.next (FreqGenerator.next realOps))
          ⟨iterState (FreqGenerator.next realOps) (FreqGenerator.new (27.5:ℝ) 12) 5, 0⟩ 30 =
        (nthValue (ScaleGenerator.next (FreqGenerator.next realOps))
            ⟨FreqGenerator.new (27.5:ℝ) 12, 0⟩ 30).map
          (fun v => v * 2 ^ (((5:ℕ) : ℝ) / 12)) :=
  ⟨by norm_num, C7_key_shift_orthogonal.1 27.5 12 5 0 30 (by norm_num)⟩
